import Mathlib

namespace MacBid

/-!
# MacBid Arbitrage — verification of the Opportunity Engine specification

This file embeds the numeric core of the macbid-arbitrage application and
proves the specified properties about it.  The repository ships the Next.js
frontend (API client, pages) and a README; the backend Opportunity Engine
(fee model, cost model, confidence scorer, engine, alert matcher) is not part
of the shipped sources, so those components are modelled from the
specification text, as marked on each definition.

Money values are exact rationals (fixed-point decimal amounts are a subset of
ℚ).  All arithmetic used inside executable definitions goes through the
`qadd`/`qsub`/`qmul`/`qdiv` wrappers below, which compute through `mkRat` so
that the kernel can evaluate them on concrete inputs; bridge lemmas identify
them with the ordinary field operations on ℚ for symbolic reasoning.
-/

/-- Addition on ℚ computed through `mkRat` (kernel-evaluable). -/
def qadd (a b : ℚ) : ℚ := mkRat (a.num * b.den + b.num * a.den) (a.den * b.den)

/-- Subtraction on ℚ computed through `mkRat` (kernel-evaluable). -/
def qsub (a b : ℚ) : ℚ := mkRat (a.num * b.den - b.num * a.den) (a.den * b.den)

/-- Multiplication on ℚ computed through `mkRat` (kernel-evaluable). -/
def qmul (a b : ℚ) : ℚ := mkRat (a.num * b.num) (a.den * b.den)

/-- Inverse on ℚ computed through `mkRat` (kernel-evaluable). -/
def qinv (b : ℚ) : ℚ :=
  if 0 ≤ b.num then mkRat (b.den : ℤ) b.num.toNat
  else mkRat (-(b.den : ℤ)) (-b.num).toNat

/-- Division on ℚ computed through `mkRat` (kernel-evaluable). -/
def qdiv (a b : ℚ) : ℚ := qmul a (qinv b)

/-- Integer `n` as a rational, in kernel-evaluable form. -/
def qint (n : ℤ) : ℚ := mkRat n 1

/-- Round a rational amount to the cent, half up:
`roundCent q = ⌊100 q + 1/2⌋ / 100`.  This is the rounding rule the spec
prescribes for the final result of every chained money computation, and it is
also the rounding `Intl.NumberFormat` (the frontend `formatCurrency`) applies
to non-negative amounts at display time. -/
def roundCent (q : ℚ) : ℚ :=
  mkRat (Rat.floor (qadd (qmul q (qint 100)) (mkRat 1 2))) 100

/-- Fuel-driven base-2 logarithm (structural recursion, so the kernel can
evaluate it); agrees with `⌊log₂ n⌋` for `2 ≤ n < 2 ^ fuel`. -/
def log2Fuel : Nat → Nat → Nat
  | 0, _ => 0
  | fuel + 1, n => if n < 2 then 0 else log2Fuel fuel (n / 2) + 1

/-- Negation on ℚ in kernel-evaluable form. -/
def qneg (a : ℚ) : ℚ := mkRat (-a.num) a.den

/-!
## Frontend embedding: the API client `fetchJson` (lib/api.ts)

The frontend source reads:
`const res = await fetch(url, init); if (!res.ok) throw new Error(...);
return res.json();` where the thrown message is `API error: ` followed by
the numeric status.  We embed the response as the pair of its HTTP status and
the outcome of parsing its body (`res.json()` itself can reject on an
unparseable body, which surfaces as a different error, not an `API error`).
-/

/-- A fetch `Response` as `fetchJson` observes it: the HTTP status code and
the outcome of `res.json()` for the body. -/
structure JsResponse (α : Type) where
  status : Nat
  jsonResult : Except String α

/-- WHATWG fetch `Response.ok`: `true` iff the status is in the 2xx range. -/
def respOk {α : Type} (r : JsResponse α) : Bool :=
  decide (200 ≤ r.status ∧ r.status < 300)

/-- The two ways `fetchJson` can reject: the explicit throw on `!res.ok`,
or a body-parse rejection propagated from `res.json()`. -/
inductive FetchError where
  | apiError (status : Nat)
  | bodyError (msg : String)
deriving DecidableEq

/-- The `message` of the thrown `Error` object. -/
def FetchError.message : FetchError → String
  | .apiError s => "API error: " ++ toString s
  | .bodyError m => m

instance {ε α : Type} [DecidableEq ε] [DecidableEq α] : DecidableEq (Except ε α)
  | Except.ok x, Except.ok y =>
    if h : x = y then isTrue (congrArg Except.ok h)
    else isFalse (fun c => h (Except.ok.inj c))
  | Except.ok _, Except.error _ => isFalse (fun c => Except.noConfusion c)
  | Except.error _, Except.ok _ => isFalse (fun c => Except.noConfusion c)
  | Except.error x, Except.error y =>
    if h : x = y then isTrue (congrArg Except.error h)
    else isFalse (fun c => h (Except.error.inj c))

/-- Embedding of `fetchJson` from the frontend API client: throw
`Error` with message `API error: <status>` when the response is not ok,
otherwise return the parsed JSON body. -/
def fetchJson {α : Type} (r : JsResponse α) : Except FetchError α :=
  if respOk r then
    match r.jsonResult with
    | Except.ok v => Except.ok v
    | Except.error m => Except.error (FetchError.bodyError m)
  else Except.error (FetchError.apiError r.status)

/-!
## Frontend numeric semantics: IEEE-754 binary64

JavaScript numbers are IEEE-754 binary64.  The frontend performs money
arithmetic directly on them — `OpportunityDetailPage` displays the buyer
premium as `opp.listing.current_bid * 0.15` — so we model binary64 rounding
(round to nearest, ties to even) exactly, over ℚ, for the normal range of
the format.  `formatCurrency` (`Intl.NumberFormat` en-US/USD, two fraction
digits, default "halfExpand" rounding) rounds the displayed amount to the
cent, which for non-negative amounts is round-half-up.
-/

/-- Round a rational to the nearest integer, ties to even. -/
def roundHalfEven (q : ℚ) : ℤ :=
  let f := Rat.floor q
  let r := qsub q (qint f)
  if r < mkRat 1 2 then f
  else if mkRat 1 2 < r then f + 1
  else if f % 2 = 0 then f else f + 1

/-- `⌊log₂ q⌋` for positive rationals, computed by shifting by `2 ^ 200`;
correct for `2 ^ (-200) ≤ q < 2 ^ 400`, which covers every value used here. -/
def floorLog2 (q : ℚ) : ℤ :=
  (log2Fuel 600 (q.num.toNat * 2 ^ 200 / q.den) : ℤ) - 200

/-- `2 ^ e` as a rational, kernel-evaluable. -/
def qpow2 (e : ℤ) : ℚ :=
  if 0 ≤ e then mkRat (2 ^ e.toNat) 1 else mkRat 1 (2 ^ (-e).toNat)

/-- Round a positive rational to the nearest IEEE-754 binary64 value
(53-bit significand, round to nearest, ties to even); valid on the normal
range of the format, which covers every frontend money value. -/
def toB64pos (q : ℚ) : ℚ :=
  let s := 52 - floorLog2 q
  qmul (qint (roundHalfEven (qmul q (qpow2 s)))) (qpow2 (-s))

/-- Round a rational to the nearest IEEE-754 binary64 value. -/
def toB64 (q : ℚ) : ℚ :=
  if q = 0 then 0 else if q < 0 then qneg (toB64pos (qneg q)) else toB64pos q

/-- IEEE-754 binary64 product of two binary64 values: the exact product,
rounded back to binary64 — the semantics of `*` on JavaScript numbers. -/
def jsMul (a b : ℚ) : ℚ := toB64 (qmul a b)

/-- Embedding of the buyer-premium display computation of
`OpportunityDetailPage`: `opp.listing.current_bid * 0.15` under JavaScript
number semantics — the parsed `current_bid` and the literal `0.15` each
denote binary64 values, and `*` is the rounded binary64 product. -/
def jsBuyerPremium (bid : ℚ) : ℚ := jsMul (toB64 bid) (toB64 (mkRat 15 100))

/-- The same buyer-premium computation under the spec's declared numeric
semantics: exact fixed-point decimal multiplication. -/
def decimalBuyerPremium (bid : ℚ) : ℚ := qmul bid (mkRat 15 100)

/-- Embedding of the frontend `formatCurrency`: the number of cents
`Intl.NumberFormat` displays for a non-negative amount (two fraction digits,
default half-away-from-zero rounding, i.e. half-up for non-negative). -/
def formatCurrencyCents (value : ℚ) : ℤ :=
  Rat.floor (qadd (qmul value (qint 100)) (mkRat 1 2))

/-!
## Backend model

The backend (FastAPI services: profit calculator, opportunity engine, alert
matcher) is not among the shipped sources — only the frontend declarations of
its records and the README's profit formula are.  The definitions below are
therefore modelled from the specification, as their doc comments state.
-/

/-- Minimum of two rationals, kernel-evaluable. -/
def qmin (a b : ℚ) : ℚ := if a ≤ b then a else b

/-- Maximum of two rationals, kernel-evaluable. -/
def qmax (a b : ℚ) : ℚ := if a ≤ b then b else a

/-- Absolute value on ℚ, kernel-evaluable. -/
def qabs (a : ℚ) : ℚ := if a < 0 then qneg a else a

/-- Sum of a list of rationals, kernel-evaluable. -/
def sumQ : List ℚ → ℚ
  | [] => 0
  | x :: xs => qadd x (sumQ xs)

/-- Modelled from the spec: a platform's fee schedule (the Fee Model is not
in the shipped sources) — a percentage-of-sale fee and a flat per-order fee,
data rather than branching logic. -/
structure FeeSchedule where
  pct : ℚ
  flat : ℚ
deriving DecidableEq

/-- Modelled from the spec: the engine's configuration object — fee schedules
per platform, buyer-premium rate, flat lot fee, tax rate and staleness
window are configuration, not hard-coded constants. -/
structure EngineConfig where
  feeSchedules : List (String × FeeSchedule)
  buyerPremiumRate : ℚ
  flatLotFee : ℚ
  taxRate : ℚ
  stalenessWindow : ℚ
deriving DecidableEq

/-- Look up the fee schedule of a platform in the configuration table. -/
def lookupSchedule (cfg : EngineConfig) (platform : String) : Option FeeSchedule :=
  (cfg.feeSchedules.find? (fun e => e.1 == platform)).map Prod.snd

/-- Modelled from the spec: the error taxonomy of the engine core (the
backend error types are not in the shipped sources). -/
inductive EngineError where
  | unknownPlatform
  | invalidListingState
deriving DecidableEq

/-- One auction lot, as declared by the frontend `Listing` interface
(string status, nullable closing time) restricted to the fields the engine
reads; times are numeric timestamps. -/
structure Listing where
  listing_id : String
  product_id : String
  current_bid : ℚ
  condition : String
  closes_at : Option ℚ
  status : String
deriving DecidableEq

/-- One observed resale price, as declared by the frontend `PlatformPrice`
interface restricted to the fields the engine reads. -/
structure PlatformPrice where
  platform : String
  price : ℚ
  shipping_cost : ℚ
  fetched_at : ℚ
deriving DecidableEq

/-- Modelled from the spec: the Fee Model value on a known schedule —
`sell_price − (sell_price × pct + flat) − shipping_cost`, rounded to the
cent (half up) at the final result. -/
def net_revenue_val (sched : FeeSchedule) (sellPrice shippingCost : ℚ) : ℚ :=
  roundCent (qsub (qsub sellPrice (qadd (qmul sellPrice sched.pct) sched.flat)) shippingCost)

/-- Modelled from the spec: Fee Model `net_revenue(platform, sell_price,
shipping_cost)` (not in the shipped sources) — pure; fails with
`UnknownPlatformError` for an unrecognized platform. -/
def net_revenue (cfg : EngineConfig) (platform : String) (sellPrice shippingCost : ℚ) :
    Except EngineError ℚ :=
  match lookupSchedule cfg platform with
  | none => Except.error EngineError.unknownPlatform
  | some sched => Except.ok (net_revenue_val sched sellPrice shippingCost)

/-- Modelled from the spec: the exact (unrounded) total acquisition cost —
`subtotal + subtotal × tax_rate` with
`subtotal = current_bid + current_bid × buyer_premium_rate + flat_lot_fee`.
Rounding happens only at the final persisted result, per the spec's numeric
semantics. -/
def total_cost_raw (cfg : EngineConfig) (l : Listing) : ℚ :=
  let subtotal := qadd (qadd l.current_bid (qmul l.current_bid cfg.buyerPremiumRate)) cfg.flatLotFee
  qadd subtotal (qmul subtotal cfg.taxRate)

/-- Modelled from the spec: Cost Model `total_cost(listing)` (not in the
shipped sources) — fails with `InvalidListingStateError` if
`current_bid ≤ 0`. -/
def total_cost (cfg : EngineConfig) (l : Listing) : Except EngineError ℚ :=
  if l.current_bid ≤ 0 then Except.error EngineError.invalidListingState
  else Except.ok (total_cost_raw cfg l)

/-- Median of a list of rationals: middle element of the sorted list, or the
mean of the two middle elements for an even length ([] gives 0; the engine
never takes the median of an empty group). -/
def medianQ (xs : List ℚ) : ℚ :=
  let s := List.insertionSort (fun a b => a ≤ b) xs
  if s.length = 0 then 0
  else if s.length % 2 = 1 then s.getD (s.length / 2) 0
  else qdiv (qadd (s.getD (s.length / 2 - 1) 0) (s.getD (s.length / 2) 0)) (qint 2)

/-- Modelled from the spec: the comparables within the staleness window at
evaluation time `now` (the clock is an explicit parameter). -/
def recentOf (cfg : EngineConfig) (now : ℚ) (ps : List PlatformPrice) : List PlatformPrice :=
  ps.filter (fun p => decide (qsub now p.fetched_at ≤ cfg.stalenessWindow))

/-- The distinct platforms appearing in a list of observations. -/
def platformsOf (ps : List PlatformPrice) : List String :=
  (ps.map PlatformPrice.platform).dedup

/-- Modelled from the spec: sample-count factor of the Confidence Scorer —
a capped logarithmic contribution (diminishing returns, saturating), in
[0, 1]. -/
def countFactor (n : ℕ) : ℚ :=
  qmin 1 (qdiv (qint (log2Fuel 64 (n + 1))) (qint 5))

/-- Modelled from the spec: recency factor of the Confidence Scorer — the
fraction of comparables inside the staleness window, decaying toward a floor
of 1/4 rather than to zero; in [0, 1]. -/
def recencyFactor (cfg : EngineConfig) (now : ℚ) (comps : List PlatformPrice) : ℚ :=
  if comps.length = 0 then 0
  else qmax (mkRat 1 4) (qdiv (qint (recentOf cfg now comps).length) (qint comps.length))

/-- Modelled from the spec: price-dispersion factor of the Confidence
Scorer — low dispersion among comparables gives high confidence; dispersion
is measured as mean absolute deviation over the mean (an exact-arithmetic
coefficient of variation); in [0, 1]. -/
def dispersionFactor (comps : List PlatformPrice) : ℚ :=
  if comps.length = 0 then 0
  else
    let m := qdiv (sumQ (comps.map PlatformPrice.price)) (qint comps.length)
    if m ≤ 0 then 0
    else
      qmax 0 (qsub 1 (qdiv (qdiv (sumQ (comps.map (fun p => qabs (qsub p.price m))))
        (qint comps.length)) m))

/-- Modelled from the spec: Confidence Scorer `score(comparables)` (not in
the shipped sources) — a weighted combination (40/30/30) of sample count,
recency and price dispersion, clamped into [0, 100]; zero comparables give 0
and never an error. -/
def scoreClamp (z : ℤ) : ℕ :=
  if z ≤ 0 then 0 else if 100 ≤ z then 100 else z.toNat

def score (cfg : EngineConfig) (now : ℚ) (comps : List PlatformPrice) : ℕ :=
  if comps.length = 0 then 0
  else scoreClamp (Rat.floor (qadd (qadd (qmul (qint 40) (countFactor comps.length))
    (qmul (qint 30) (recencyFactor cfg now comps))) (qmul (qint 30) (dispersionFactor comps))))

/-- The engine's primary output, as declared by the frontend `Opportunity`
interface (identity and timestamp columns, which the database owns, are
omitted): one listing linked to one sell platform with the derived money
fields. -/
structure Opportunity where
  product_id : String
  macbid_listing_id : String
  sell_platform : String
  buy_cost : ℚ
  estimated_sell_price : ℚ
  platform_fees : ℚ
  shipping_cost : ℚ
  profit : ℚ
  roi_pct : ℚ
  confidence_score : ℕ
deriving DecidableEq

/-- The deduplication key of an Opportunity: `(listing_id, platform)`. -/
def oppKey (o : Opportunity) : String × String :=
  (o.macbid_listing_id, o.sell_platform)

/-- Modelled from the spec: the kind carried by an `OpportunityChanged`
domain event. -/
inductive ChangeKind where
  | created
  | updated
deriving DecidableEq

/-- Modelled from the spec: the `OpportunityChanged` domain event emitted to
downstream consumers (Alert Matcher, Real-time Notifier). -/
structure OpportunityChanged where
  opportunity : Opportunity
  kind : ChangeKind
deriving DecidableEq

/-- Modelled from the spec: step 1 of the engine algorithm — a listing is
rejected outright (no persistence) when it is closed, expired, or has no
positive bid. -/
def listingRejected (now : ℚ) (l : Listing) : Bool :=
  l.status == "closed" ||
    (match l.closes_at with
     | some t => decide (t ≤ now)
     | none => false) ||
    decide (l.current_bid ≤ 0)

/-- Modelled from the spec: the per-platform result of steps 2–5 of the
engine algorithm — median-based sell estimate over that platform's recent
comparables, fee and cost rounded to the cent when persisted, profit and ROI
derived from the persisted fields, discarded unless the profit is positive;
a platform without a fee schedule is skipped (the `UnknownPlatformError` is
isolated to that evaluation). -/
def computeOpp (cfg : EngineConfig) (now : ℚ) (l : Listing) (platform : String)
    (comps : List PlatformPrice) : Option Opportunity :=
  match lookupSchedule cfg platform with
  | none => none
  | some sched =>
    let sell := roundCent (medianQ (comps.map PlatformPrice.price))
    let ship := roundCent (medianQ (comps.map PlatformPrice.shipping_cost))
    let fees := roundCent (qadd (qmul sell sched.pct) sched.flat)
    let buyC := roundCent (total_cost_raw cfg l)
    let pr := qsub (qsub (qsub sell fees) ship) buyC
    if pr ≤ 0 then none
    else some
      { product_id := l.product_id
        macbid_listing_id := l.listing_id
        sell_platform := platform
        buy_cost := buyC
        estimated_sell_price := sell
        platform_fees := fees
        shipping_cost := ship
        profit := pr
        roi_pct := qdiv (qmul (qint 100) pr) buyC
        confidence_score := score cfg now comps }

/-- Modelled from the spec: steps 2–6 of the engine algorithm — group the
recent observations by platform and emit one candidate Opportunity per
platform that clears the profitability bar. -/
def newOpportunities (cfg : EngineConfig) (now : ℚ) (l : Listing)
    (prices : List PlatformPrice) : List Opportunity :=
  let recents := recentOf cfg now prices
  (platformsOf recents).filterMap
    (fun pf => computeOpp cfg now l pf (recents.filter (fun p => p.platform == pf)))

/-- Replace the first record with the same key, leaving the rest alone. -/
def updateFirst (o : Opportunity) : List Opportunity → List Opportunity
  | [] => []
  | x :: xs => if oppKey x = oppKey o then o :: xs else x :: updateFirst o xs

/-- The persisted record with the given `(listing_id, platform)` key, if
any. -/
def lookupKey (store : List Opportunity) (k : String × String) : Option Opportunity :=
  store.find? (fun x => decide (oppKey x = k))

/-- Modelled from the spec: step 7/8 of the engine algorithm — the upsert
keyed by `(listing_id, platform)`: a genuinely new pairing is inserted and
emits a `created` event; an existing record is updated in place, emitting an
`updated` event only when a field actually changed; an unchanged
recomputation emits nothing. -/
def upsert (store : List Opportunity) (o : Opportunity) :
    List Opportunity × Option OpportunityChanged :=
  match lookupKey store (oppKey o) with
  | none => (store ++ [o], some ⟨o, ChangeKind.created⟩)
  | some old =>
    if old = o then (store, none)
    else (updateFirst o store, some ⟨o, ChangeKind.updated⟩)

/-- Fold one upsert into an accumulated (store, events) pair. -/
def upsertStep (acc : List Opportunity × List OpportunityChanged) (o : Opportunity) :
    List Opportunity × List OpportunityChanged :=
  let r := upsert acc.1 o
  (r.1, acc.2 ++ r.2.toList)

/-- Modelled from the spec: the engine's core operation
`evaluate(listing, platform_prices_for_product)` (not in the shipped
sources) — reject closed/expired/bid-less listings outright, otherwise
upsert every profitable per-platform result into the store, collecting the
emitted `OpportunityChanged` events. -/
def evaluate (cfg : EngineConfig) (now : ℚ) (l : Listing) (prices : List PlatformPrice)
    (store : List Opportunity) : List Opportunity × List OpportunityChanged :=
  if listingRejected now l then (store, [])
  else (newOpportunities cfg now l prices).foldl upsertStep (store, [])

/-- The store after a sequence of (serialized) evaluations. -/
def runJobs (cfg : EngineConfig) (now : ℚ) (jobs : List (Listing × List PlatformPrice))
    (store : List Opportunity) : List Opportunity :=
  jobs.foldl (fun s job => (evaluate cfg now job.1 job.2 s).1) store

/-- A user's notification rule, as declared by the frontend `AlertSetting`
interface (identity and timestamp columns omitted): `null` watched
categories means all categories. -/
structure AlertSetting where
  email : String
  min_profit : ℚ
  min_roi : ℚ
  watched_categories : Option (List String)
  is_active : Bool
deriving DecidableEq

/-- Modelled from the spec: the Alert Matcher predicate (not in the shipped
sources) — a setting matches an opportunity iff it is active, the profit and
ROI thresholds are met, and the watched-category set (if any) contains the
opportunity's product category. -/
def settingMatches (s : AlertSetting) (category : Option String) (o : Opportunity) : Bool :=
  s.is_active && decide (s.min_profit ≤ o.profit) && decide (s.min_roi ≤ o.roi_pct) &&
    (match s.watched_categories with
     | none => true
     | some cats =>
       match category with
       | none => false
       | some c => decide (c ∈ cats))

/-- Modelled from the spec: Alert Matcher
`match(opportunity, active_settings)` — the pure filter producing one
`(setting, opportunity)` pair per matching setting. -/
def matchSettings (o : Opportunity) (category : Option String)
    (settings : List AlertSetting) : List (AlertSetting × Opportunity) :=
  (settings.filter (fun s => settingMatches s category o)).map (fun s => (s, o))

/-!
## Concrete instances (the spec's example scenario)
-/

/-- The eBay fee schedule of the spec's example: 13.6% plus $0.40 per
order. -/
def sched0 : FeeSchedule := { pct := mkRat 136 1000, flat := mkRat 40 100 }

/-- The configuration of the spec's example scenario: 15% buyer's premium,
$3.00 lot fee, no tax, a 7-day staleness window, and the eBay schedule. -/
def cfg0 : EngineConfig :=
  { feeSchedules := [("ebay", sched0), ("amazon", { pct := mkRat 15 100, flat := 0 })]
    buyerPremiumRate := mkRat 15 100
    flatLotFee := 3
    taxRate := 0
    stalenessWindow := 7 }

/-- The example listing: current bid $100.00, active, no deadline. -/
def listing0 : Listing :=
  { listing_id := "lot-1001"
    product_id := "prod-1"
    current_bid := 100
    condition := "open_box"
    closes_at := none
    status := "active" }

/-- The example comparable: eBay, $180.00, $10.00 shipping, fetched at the
evaluation instant. -/
def price0 : PlatformPrice :=
  { platform := "ebay", price := 180, shipping_cost := 10, fetched_at := 0 }

/-- The Opportunity the example scenario must produce: buy cost $118.00,
sell $180.00, fees $24.88, shipping $10.00, profit $27.12,
ROI 2712/118 % ≈ 22.98%. -/
def opp0 : Opportunity :=
  { product_id := "prod-1"
    macbid_listing_id := "lot-1001"
    sell_platform := "ebay"
    buy_cost := 118
    estimated_sell_price := 180
    platform_fees := mkRat 2488 100
    shipping_cost := 10
    profit := mkRat 2712 100
    roi_pct := mkRat 271200 11800
    confidence_score := 68 }

/-- The store after upserting a list of records in order (the store
component of the engine's fold). -/
def upsertStoreAll (os : List Opportunity) (store : List Opportunity) : List Opportunity :=
  os.foldl (fun s o => (upsert s o).1) store

/-- A rational amount that is a whole number of cents — every money input
(bids, prices) is one. -/
abbrev CentQ (q : ℚ) : Prop := ∃ n : ℤ, q = (n : ℚ) / 100

/-- A well-formed configuration: non-negative premium, lot fee and tax rate,
and every fee schedule takes a percentage in [0, 1] and a non-negative flat
fee. -/
abbrev ValidConfig (cfg : EngineConfig) : Prop :=
  0 ≤ cfg.buyerPremiumRate ∧ 0 ≤ cfg.flatLotFee ∧ 0 ≤ cfg.taxRate ∧
    ∀ e ∈ cfg.feeSchedules, 0 ≤ e.2.pct ∧ e.2.pct ≤ 1 ∧ 0 ≤ e.2.flat

/-- The spec's Opportunity invariant:
`profit = estimated_sell_price − platform_fees − shipping_cost − buy_cost`,
`buy_cost > 0`, and `roi_pct = 100 × profit / buy_cost`. -/
abbrev GoodOpp (o : Opportunity) : Prop :=
  o.profit = o.estimated_sell_price - o.platform_fees - o.shipping_cost - o.buy_cost ∧
    0 < o.buy_cost ∧ o.roi_pct = 100 * o.profit / o.buy_cost

/-!
## Theorems
-/

theorem qadd_eq (a b : ℚ) : qadd a b = a + b := by
  unfold qadd
  rw [Rat.mkRat_eq_div]
  have ha : (a.den : ℚ) ≠ 0 := Nat.cast_ne_zero.mpr a.den_nz
  have hb : (b.den : ℚ) ≠ 0 := Nat.cast_ne_zero.mpr b.den_nz
  conv_rhs => rw [← Rat.num_div_den a, ← Rat.num_div_den b]
  push_cast
  field_simp

theorem qsub_eq (a b : ℚ) : qsub a b = a - b := by
  unfold qsub
  rw [Rat.mkRat_eq_div]
  have ha : (a.den : ℚ) ≠ 0 := Nat.cast_ne_zero.mpr a.den_nz
  have hb : (b.den : ℚ) ≠ 0 := Nat.cast_ne_zero.mpr b.den_nz
  conv_rhs => rw [← Rat.num_div_den a, ← Rat.num_div_den b]
  push_cast
  field_simp
  ring

theorem qmul_eq (a b : ℚ) : qmul a b = a * b := by
  unfold qmul
  rw [Rat.mkRat_eq_div]
  have ha : (a.den : ℚ) ≠ 0 := Nat.cast_ne_zero.mpr a.den_nz
  have hb : (b.den : ℚ) ≠ 0 := Nat.cast_ne_zero.mpr b.den_nz
  conv_rhs => rw [← Rat.num_div_den a, ← Rat.num_div_den b]
  push_cast
  field_simp

theorem qinv_eq (b : ℚ) : qinv b = b⁻¹ := by
  unfold qinv
  by_cases hz : b.num = 0
  · have hb0 : b = 0 := Rat.zero_iff_num_zero.mpr hz
    subst hb0
    simp
  · have hd : (b.den : ℚ) ≠ 0 := Nat.cast_ne_zero.mpr b.den_nz
    have hn : (b.num : ℚ) ≠ 0 := Int.cast_ne_zero.mpr hz
    conv_rhs => rw [← Rat.num_div_den b]
    rw [inv_div]
    by_cases h : 0 ≤ b.num
    · rw [if_pos h, Rat.mkRat_eq_div]
      have hc : ((b.num.toNat : ℕ) : ℚ) = (b.num : ℚ) := by
        exact_mod_cast Int.toNat_of_nonneg h
      rw [hc]
      norm_cast
    · rw [if_neg h, Rat.mkRat_eq_div]
      have h' : (0:ℤ) ≤ -b.num := by omega
      have hc : (((-b.num).toNat : ℕ) : ℚ) = -(b.num : ℚ) := by
        exact_mod_cast Int.toNat_of_nonneg h'
      rw [hc]
      push_cast
      rw [neg_div_neg_eq]

theorem qdiv_eq (a b : ℚ) : qdiv a b = a / b := by
  rw [qdiv, qmul_eq, qinv_eq, div_eq_mul_inv]

theorem qint_eq (n : ℤ) : qint n = (n : ℚ) := by
  unfold qint
  rw [Rat.mkRat_eq_div]
  simp

theorem rat_floor_eq_int_floor (q : ℚ) : Rat.floor q = ⌊q⌋ := rfl

theorem roundCent_eq (q : ℚ) : roundCent q = (⌊q * 100 + 1/2⌋ : ℚ) / 100 := by
  unfold roundCent
  rw [Rat.mkRat_eq_div, rat_floor_eq_int_floor, qadd_eq, qmul_eq, qint_eq]
  norm_num

theorem roundCent_mono {a b : ℚ} (h : a ≤ b) : roundCent a ≤ roundCent b := by
  rw [roundCent_eq, roundCent_eq]
  have hf : (⌊a * 100 + 1/2⌋ : ℤ) ≤ ⌊b * 100 + 1/2⌋ := by
    apply Int.floor_le_floor
    nlinarith
  have : ((⌊a * 100 + 1/2⌋ : ℤ) : ℚ) ≤ ((⌊b * 100 + 1/2⌋ : ℤ) : ℚ) := by
    exact_mod_cast hf
  linarith

/-- `roundCent` fixes amounts that are already whole cents. -/
theorem roundCent_cent (n : ℤ) : roundCent ((n : ℚ) / 100) = (n : ℚ) / 100 := by
  rw [roundCent_eq]
  have h : (n : ℚ) / 100 * 100 + 1/2 = (n : ℚ) + 1/2 := by ring
  rw [h, Int.floor_int_add]
  norm_num

theorem qneg_eq (a : ℚ) : qneg a = -a := by
  unfold qneg
  rw [Rat.mkRat_eq_div]
  conv_rhs => rw [← Rat.num_div_den a]
  push_cast
  rw [neg_div]

theorem qmin_eq (a b : ℚ) : qmin a b = min a b := (min_def a b).symm

theorem qmax_eq (a b : ℚ) : qmax a b = max a b := (max_def a b).symm

/-!
## Store lemmas: lookup, update-in-place, upsert folds
-/

theorem updateFirst_map_key (o : Opportunity) (l : List Opportunity) :
    (updateFirst o l).map oppKey = l.map oppKey := by
  induction l with
  | nil => rfl
  | cons x xs ih =>
    unfold updateFirst
    by_cases h : oppKey x = oppKey o
    · rw [if_pos h]
      simp [h]
    · rw [if_neg h]
      simp [ih]

theorem mem_updateFirst {x o : Opportunity} {l : List Opportunity}
    (h : x ∈ updateFirst o l) : x ∈ l ∨ x = o := by
  induction l with
  | nil => simp [updateFirst] at h
  | cons y ys ih =>
    unfold updateFirst at h
    by_cases hk : oppKey y = oppKey o
    · rw [if_pos hk] at h
      rcases List.mem_cons.mp h with h1 | h1
      · exact Or.inr h1
      · exact Or.inl (List.mem_cons_of_mem y h1)
    · rw [if_neg hk] at h
      rcases List.mem_cons.mp h with h1 | h1
      · exact Or.inl (h1 ▸ List.mem_cons_self y ys)
      · rcases ih h1 with h2 | h2
        · exact Or.inl (List.mem_cons_of_mem y h2)
        · exact Or.inr h2

theorem lookupKey_updateFirst_self {o old : Opportunity} {l : List Opportunity}
    (h : lookupKey l (oppKey o) = some old) :
    lookupKey (updateFirst o l) (oppKey o) = some o := by
  induction l with
  | nil => simp [lookupKey] at h
  | cons x xs ih =>
    by_cases hk : oppKey x = oppKey o
    · unfold updateFirst
      rw [if_pos hk]
      unfold lookupKey
      exact List.find?_cons_of_pos _ (by simp)
    · unfold updateFirst
      rw [if_neg hk]
      unfold lookupKey at h ⊢
      rw [List.find?_cons_of_neg _ (by simp [hk])] at h
      rw [List.find?_cons_of_neg _ (by simp [hk])]
      exact ih h

theorem lookupKey_updateFirst_other {o : Opportunity} {l : List Opportunity}
    {k : String × String} (h : oppKey o ≠ k) :
    lookupKey (updateFirst o l) k = lookupKey l k := by
  induction l with
  | nil => rfl
  | cons x xs ih =>
    by_cases hk : oppKey x = oppKey o
    · unfold updateFirst
      rw [if_pos hk]
      unfold lookupKey
      rw [List.find?_cons_of_neg _ (by simp [h]),
        List.find?_cons_of_neg _ (by simp [hk, h])]
    · unfold updateFirst
      rw [if_neg hk]
      by_cases hxk : oppKey x = k
      · unfold lookupKey
        rw [List.find?_cons_of_pos _ (by simp [hxk]),
          List.find?_cons_of_pos _ (by simp [hxk])]
      · unfold lookupKey
        rw [List.find?_cons_of_neg _ (by simp [hxk]),
          List.find?_cons_of_neg _ (by simp [hxk])]
        exact ih

theorem lookupKey_append_of_none {l : List Opportunity} {o : Opportunity}
    {k : String × String} (h : lookupKey l k = none) :
    lookupKey (l ++ [o]) k = lookupKey [o] k := by
  induction l with
  | nil => rfl
  | cons x xs ih =>
    unfold lookupKey at h ⊢
    by_cases hxk : oppKey x = k
    · rw [List.find?_cons_of_pos _ (by simp [hxk])] at h
      exact absurd h (by simp)
    · rw [List.find?_cons_of_neg _ (by simp [hxk])] at h
      rw [List.cons_append, List.find?_cons_of_neg _ (by simp [hxk])]
      exact ih h

theorem lookupKey_append_of_ne {l : List Opportunity} {o : Opportunity}
    {k : String × String} (h : oppKey o ≠ k) :
    lookupKey (l ++ [o]) k = lookupKey l k := by
  induction l with
  | nil =>
    show lookupKey ([] ++ [o]) k = lookupKey [] k
    rw [List.nil_append]
    unfold lookupKey
    rw [List.find?_cons_of_neg _ (by simp [h])]
  | cons x xs ih =>
    by_cases hxk : oppKey x = k
    · unfold lookupKey
      rw [List.cons_append, List.find?_cons_of_pos _ (by simp [hxk]),
        List.find?_cons_of_pos _ (by simp [hxk])]
    · unfold lookupKey
      rw [List.cons_append, List.find?_cons_of_neg _ (by simp [hxk]),
        List.find?_cons_of_neg _ (by simp [hxk])]
      exact ih

theorem lookupKey_upsert_self (s : List Opportunity) (o : Opportunity) :
    lookupKey (upsert s o).1 (oppKey o) = some o := by
  unfold upsert
  cases hf : lookupKey s (oppKey o) with
  | none =>
    dsimp only
    rw [lookupKey_append_of_none hf]
    unfold lookupKey
    exact List.find?_cons_of_pos _ (by simp)
  | some old =>
    dsimp only
    by_cases he : old = o
    · rw [if_pos he]
      rw [hf, he]
    · rw [if_neg he]
      exact lookupKey_updateFirst_self hf

theorem lookupKey_upsert_other {s : List Opportunity} {o : Opportunity}
    {k : String × String} (h : oppKey o ≠ k) :
    lookupKey (upsert s o).1 k = lookupKey s k := by
  unfold upsert
  cases hf : lookupKey s (oppKey o) with
  | none =>
    dsimp only
    exact lookupKey_append_of_ne h
  | some old =>
    dsimp only
    by_cases he : old = o
    · rw [if_pos he]
    · rw [if_neg he]
      exact lookupKey_updateFirst_other h

theorem upsertStoreAll_cons (o : Opportunity) (os : List Opportunity)
    (s : List Opportunity) :
    upsertStoreAll (o :: os) s = upsertStoreAll os (upsert s o).1 := rfl

theorem lookupKey_upsertStoreAll_other {os s : List Opportunity} {k : String × String}
    (h : ∀ o ∈ os, oppKey o ≠ k) :
    lookupKey (upsertStoreAll os s) k = lookupKey s k := by
  induction os generalizing s with
  | nil => rfl
  | cons o os ih =>
    rw [upsertStoreAll_cons, ih (fun o' ho' => h o' (List.mem_cons_of_mem o ho'))]
    exact lookupKey_upsert_other (h o (List.mem_cons_self o os))

theorem lookupKey_upsertStoreAll_mem {os : List Opportunity}
    (hn : (os.map oppKey).Nodup) (s : List Opportunity) :
    ∀ o ∈ os, lookupKey (upsertStoreAll os s) (oppKey o) = some o := by
  induction os generalizing s with
  | nil =>
    intro o ho
    simp at ho
  | cons o os ih =>
    rw [List.map_cons, List.nodup_cons] at hn
    obtain ⟨hni, hnd⟩ := hn
    intro o' ho'
    rcases List.mem_cons.mp ho' with rfl | hmem
    · rw [upsertStoreAll_cons]
      rw [lookupKey_upsertStoreAll_other (fun x hx hkey =>
        hni (by rw [← hkey]; exact List.mem_map_of_mem oppKey hx))]
      exact lookupKey_upsert_self s o'
    · rw [upsertStoreAll_cons]
      exact ih hnd (upsert s o).1 o' hmem

theorem upsert_of_lookup_self {s : List Opportunity} {o : Opportunity}
    (h : lookupKey s (oppKey o) = some o) : upsert s o = (s, none) := by
  unfold upsert
  rw [h]
  dsimp only
  rw [if_pos rfl]

theorem foldl_upsertStep_fixed {os s : List Opportunity} {evs : List OpportunityChanged}
    (h : ∀ o ∈ os, lookupKey s (oppKey o) = some o) :
    os.foldl upsertStep (s, evs) = (s, evs) := by
  induction os generalizing evs with
  | nil => rfl
  | cons o os ih =>
    rw [List.foldl_cons]
    have h1 : upsertStep (s, evs) o = (s, evs) := by
      unfold upsertStep
      rw [upsert_of_lookup_self (h o (List.mem_cons_self o os))]
      simp
    rw [h1]
    exact ih (fun o' ho' => h o' (List.mem_cons_of_mem o ho'))

theorem foldl_upsertStep_fst (os : List Opportunity) (s : List Opportunity)
    (evs : List OpportunityChanged) :
    (os.foldl upsertStep (s, evs)).1 = upsertStoreAll os s := by
  induction os generalizing s evs with
  | nil => rfl
  | cons o os ih =>
    rw [List.foldl_cons, upsertStoreAll_cons]
    exact ih _ _

theorem upsert_keys_nodup {s : List Opportunity} {o : Opportunity}
    (h : (s.map oppKey).Nodup) : ((upsert s o).1.map oppKey).Nodup := by
  unfold upsert
  cases hf : lookupKey s (oppKey o) with
  | none =>
    dsimp only
    rw [List.map_append, List.nodup_append]
    refine ⟨h, List.nodup_singleton _, ?_⟩
    intro k hk1 hk2
    simp only [List.map_cons, List.map_nil, List.mem_singleton] at hk2
    subst hk2
    rw [List.mem_map] at hk1
    obtain ⟨x, hx, hkx⟩ := hk1
    unfold lookupKey at hf
    have hne := List.find?_eq_none.mp hf x hx
    simp [hkx] at hne
  | some old =>
    dsimp only
    by_cases he : old = o
    · rw [if_pos he]
      exact h
    · rw [if_neg he, updateFirst_map_key]
      exact h

theorem upsertStoreAll_keys_nodup {os s : List Opportunity}
    (h : (s.map oppKey).Nodup) : ((upsertStoreAll os s).map oppKey).Nodup := by
  induction os generalizing s with
  | nil => exact h
  | cons o os ih =>
    rw [upsertStoreAll_cons]
    exact ih (upsert_keys_nodup h)

theorem mem_upsert {x : Opportunity} {s : List Opportunity} {o : Opportunity}
    (h : x ∈ (upsert s o).1) : x ∈ s ∨ x = o := by
  revert h
  unfold upsert
  cases hf : lookupKey s (oppKey o) with
  | none =>
    intro h
    dsimp only at h
    rcases List.mem_append.mp h with h1 | h1
    · exact Or.inl h1
    · simp only [List.mem_singleton] at h1
      exact Or.inr h1
  | some old =>
    intro h
    dsimp only at h
    by_cases he : old = o
    · rw [if_pos he] at h
      exact Or.inl h
    · rw [if_neg he] at h
      exact mem_updateFirst h

theorem mem_upsertStoreAll {x : Opportunity} {os s : List Opportunity}
    (h : x ∈ upsertStoreAll os s) : x ∈ s ∨ x ∈ os := by
  induction os generalizing s with
  | nil => exact Or.inl h
  | cons o os ih =>
    rw [upsertStoreAll_cons] at h
    rcases ih h with h1 | h1
    · rcases mem_upsert h1 with h2 | h2
      · exact Or.inl h2
      · exact Or.inr (h2 ▸ List.mem_cons_self o os)
    · exact Or.inr (List.mem_cons_of_mem o h1)

/-!
## Engine lemmas
-/

theorem computeOpp_some_fields {cfg : EngineConfig} {now : ℚ} {l : Listing}
    {pf : String} {comps : List PlatformPrice} {o : Opportunity}
    (h : computeOpp cfg now l pf comps = some o) :
    o.sell_platform = pf ∧ o.macbid_listing_id = l.listing_id := by
  unfold computeOpp at h
  cases hs : lookupSchedule cfg pf with
  | none =>
    rw [hs] at h
    exact absurd h (by simp)
  | some sched =>
    rw [hs] at h
    dsimp only at h
    split at h
    · exact absurd h (by simp)
    · rw [Option.some.injEq] at h
      subst h
      exact ⟨rfl, rfl⟩

theorem filterMap_computeOpp_keys_nodup (cfg : EngineConfig) (now : ℚ) (l : Listing)
    (g : String → List PlatformPrice) :
    ∀ pls : List String, pls.Nodup →
      ((pls.filterMap (fun pf => computeOpp cfg now l pf (g pf))).map oppKey).Nodup := by
  intro pls
  induction pls with
  | nil =>
    intro _
    simp
  | cons pf rest ih =>
    intro hn
    rw [List.nodup_cons] at hn
    obtain ⟨hni, hnd⟩ := hn
    rw [List.filterMap_cons]
    cases hc : computeOpp cfg now l pf (g pf) with
    | none => exact ih hnd
    | some o =>
      dsimp only
      rw [List.map_cons, List.nodup_cons]
      refine ⟨?_, ih hnd⟩
      intro hmem
      rw [List.mem_map] at hmem
      obtain ⟨o', ho'mem, hkey⟩ := hmem
      rw [List.mem_filterMap] at ho'mem
      obtain ⟨pf', hpf', hc'⟩ := ho'mem
      have h1 := computeOpp_some_fields hc
      have h2 := computeOpp_some_fields hc'
      apply hni
      have hpp : pf' = pf := by
        have hk2 : o'.sell_platform = o.sell_platform := congrArg Prod.snd hkey
        rw [h1.1, h2.1] at hk2
        exact hk2
      rw [← hpp]
      exact hpf'

theorem newOpportunities_keys_nodup (cfg : EngineConfig) (now : ℚ) (l : Listing)
    (prices : List PlatformPrice) :
    ((newOpportunities cfg now l prices).map oppKey).Nodup := by
  unfold newOpportunities
  exact filterMap_computeOpp_keys_nodup cfg now l _ _ (List.nodup_dedup _)

theorem computeOpp_good {cfg : EngineConfig} {now : ℚ} {l : Listing} {pf : String}
    {comps : List PlatformPrice} {o : Opportunity}
    (hcfg : ValidConfig cfg) (hq : CentQ l.current_bid) (hpos : 0 < l.current_bid)
    (h : computeOpp cfg now l pf comps = some o) : GoodOpp o := by
  obtain ⟨hprem, hlot, htax, -⟩ := hcfg
  have hbid : (1 : ℚ)/100 ≤ l.current_bid := by
    obtain ⟨n, hn⟩ := hq
    rw [hn] at hpos ⊢
    have hn1 : (1:ℤ) ≤ n := by
      by_contra hcon
      push_neg at hcon
      have hle : n ≤ 0 := by omega
      have hleq : (n:ℚ) ≤ 0 := by exact_mod_cast hle
      linarith
    have hq1 : (1:ℚ) ≤ (n:ℚ) := by exact_mod_cast hn1
    linarith
  have hraw : (1:ℚ)/100 ≤ total_cost_raw cfg l := by
    unfold total_cost_raw
    simp only [qadd_eq, qmul_eq]
    have h1 : 0 ≤ l.current_bid * cfg.buyerPremiumRate :=
      mul_nonneg (le_of_lt hpos) hprem
    have hsub : (1:ℚ)/100 ≤
        l.current_bid + l.current_bid * cfg.buyerPremiumRate + cfg.flatLotFee := by
      linarith
    nlinarith [mul_nonneg (le_trans (by norm_num) hsub) htax]
  have hbc : 0 < roundCent (total_cost_raw cfg l) := by
    have h2 := roundCent_mono hraw
    have h3 : roundCent ((1:ℚ)/100) = 1/100 := by
      have h4 := roundCent_cent 1
      simpa using h4
    rw [h3] at h2
    linarith
  unfold computeOpp at h
  cases hs : lookupSchedule cfg pf with
  | none =>
    rw [hs] at h
    exact absurd h (by simp)
  | some sched =>
    rw [hs] at h
    dsimp only at h
    split at h
    · exact absurd h (by simp)
    · rw [Option.some.injEq] at h
      subst h
      refine ⟨?_, hbc, ?_⟩
      · simp only [qsub_eq]
      · simp only [qdiv_eq, qmul_eq, qint_eq, qsub_eq]
        norm_num

theorem evaluate_fst_rejected {cfg : EngineConfig} {now : ℚ} {l : Listing}
    {prices : List PlatformPrice} {store : List Opportunity}
    (h : listingRejected now l = true) :
    evaluate cfg now l prices store = (store, []) := by
  unfold evaluate
  rw [if_pos h]

theorem evaluate_fst (cfg : EngineConfig) (now : ℚ) (l : Listing)
    (prices : List PlatformPrice) (store : List Opportunity)
    (h : listingRejected now l = false) :
    (evaluate cfg now l prices store).1 =
      upsertStoreAll (newOpportunities cfg now l prices) store := by
  unfold evaluate
  rw [if_neg (by simp [h])]
  exact foldl_upsertStep_fst _ _ _

theorem runJobs_cons (cfg : EngineConfig) (now : ℚ) (job : Listing × List PlatformPrice)
    (jobs : List (Listing × List PlatformPrice)) (store : List Opportunity) :
    runJobs cfg now (job :: jobs) store =
      runJobs cfg now jobs (evaluate cfg now job.1 job.2 store).1 := rfl

theorem evaluate_keys_nodup (cfg : EngineConfig) (now : ℚ) (l : Listing)
    (prices : List PlatformPrice) (store : List Opportunity)
    (h : (store.map oppKey).Nodup) :
    (((evaluate cfg now l prices store).1).map oppKey).Nodup := by
  by_cases hr : listingRejected now l = true
  · rw [evaluate_fst_rejected hr]
    exact h
  · have hb : listingRejected now l = false := by
      revert hr
      cases listingRejected now l <;> simp
    rw [evaluate_fst cfg now l prices store hb]
    exact upsertStoreAll_keys_nodup h

theorem runJobs_keys_nodup (cfg : EngineConfig) (now : ℚ)
    (jobs : List (Listing × List PlatformPrice)) (store : List Opportunity)
    (h : (store.map oppKey).Nodup) :
    ((runJobs cfg now jobs store).map oppKey).Nodup := by
  induction jobs generalizing store with
  | nil => exact h
  | cons job rest ih =>
    rw [runJobs_cons]
    exact ih _ (evaluate_keys_nodup cfg now job.1 job.2 store h)

theorem evaluate_good (cfg : EngineConfig) (now : ℚ) (l : Listing)
    (prices : List PlatformPrice) (store : List Opportunity)
    (hcfg : ValidConfig cfg) (hq : CentQ l.current_bid)
    (hs : ∀ o ∈ store, GoodOpp o) :
    ∀ o ∈ (evaluate cfg now l prices store).1, GoodOpp o := by
  by_cases hr : listingRejected now l = true
  · rw [evaluate_fst_rejected hr]
    exact hs
  · have hb : listingRejected now l = false := by
      revert hr
      cases listingRejected now l <;> simp
    have hpos : 0 < l.current_bid := by
      unfold listingRejected at hb
      simp only [Bool.or_eq_false_iff, decide_eq_false_iff_not] at hb
      exact lt_of_not_le hb.2
    intro o ho
    rw [evaluate_fst cfg now l prices store hb] at ho
    rcases mem_upsertStoreAll ho with h1 | h1
    · exact hs o h1
    · unfold newOpportunities at h1
      simp only [List.mem_filterMap] at h1
      obtain ⟨pf, hpf, hc⟩ := h1
      exact computeOpp_good hcfg hq hpos hc

/-!
## Claim theorems
-/

/-- C1: for every persisted Opportunity record — any record in the store
after any sequence of evaluations, starting from a store of valid records —
`profit = estimated_sell_price − platform_fees − shipping_cost − buy_cost`,
`roi_pct = 100 × profit / buy_cost`, and `buy_cost` is strictly positive
(listings with a non-positive bid are rejected and never stored; bids are
whole cents). -/
theorem persisted_opportunity_invariant (cfg : EngineConfig) (now : ℚ)
    (jobs : List (Listing × List PlatformPrice)) (store : List Opportunity)
    (hcfg : ValidConfig cfg) (hb : ∀ j ∈ jobs, CentQ j.1.current_bid)
    (hs : ∀ o ∈ store, GoodOpp o) :
    ∀ o ∈ runJobs cfg now jobs store, GoodOpp o := by
  revert hb hs
  induction jobs generalizing store with
  | nil =>
    intro _ hs
    exact hs
  | cons job rest ih =>
    intro hb hs
    rw [runJobs_cons]
    exact ih _ (fun j hj => hb j (List.mem_cons_of_mem job hj))
      (evaluate_good cfg now job.1 job.2 store hcfg
        (hb job (List.mem_cons_self job rest)) hs)

set_option maxRecDepth 16000 in
/-- Witness for C1: the record persisted by evaluating the example listing
from the empty store satisfies the invariant. -/
theorem persisted_opportunity_invariant_witness : GoodOpp opp0 :=
  persisted_opportunity_invariant cfg0 0 [(listing0, [price0])] [] (by decide)
    (by
      intro j hj
      rw [List.mem_singleton] at hj
      subst hj
      exact ⟨10000, by norm_num [listing0]⟩)
    (by simp)
    opp0 (by decide)

theorem nodup_keys_filter_le_one {store : List Opportunity}
    (h : (store.map oppKey).Nodup) (k : String × String) :
    (store.filter (fun o => decide (oppKey o = k))).length ≤ 1 := by
  induction store with
  | nil => simp
  | cons x xs ih =>
    rw [List.map_cons, List.nodup_cons] at h
    obtain ⟨hni, hnd⟩ := h
    rw [List.filter_cons]
    by_cases hk : oppKey x = k
    · rw [if_pos (by simp [hk])]
      have hxs : xs.filter (fun o => decide (oppKey o = k)) = [] := by
        rw [List.filter_eq_nil_iff]
        intro o ho
        simp only [decide_eq_true_eq]
        intro hko
        exact hni (by rw [hk, ← hko]; exact List.mem_map_of_mem oppKey ho)
      rw [hxs]
      simp
    · rw [if_neg (by simp [hk])]
      exact ih hnd

/-- C5: after any sequence of evaluations on a store with at most one record
per `(listing_id, platform)` key, the store still has at most one record per
key (for every key, at most one row matches) — re-evaluation updates in
place and never inserts a duplicate. -/
theorem at_most_one_per_key (cfg : EngineConfig) (now : ℚ)
    (jobs : List (Listing × List PlatformPrice)) (store : List Opportunity)
    (h : (store.map oppKey).Nodup) :
    ((runJobs cfg now jobs store).map oppKey).Nodup ∧
      ∀ k, ((runJobs cfg now jobs store).filter
        (fun o => decide (oppKey o = k))).length ≤ 1 := by
  have main := runJobs_keys_nodup cfg now jobs store h
  exact ⟨main, fun k => nodup_keys_filter_le_one main k⟩

/-- Witness for C5: evaluating the same listing twice from the empty store
leaves exactly one record for its `(listing, platform)` key. -/
theorem at_most_one_per_key_witness :
    ((runJobs cfg0 0 [(listing0, [price0]), (listing0, [price0])] []).map oppKey).Nodup ∧
      ((runJobs cfg0 0 [(listing0, [price0]), (listing0, [price0])] []).filter
        (fun o => decide (oppKey o = ("lot-1001", "ebay")))).length ≤ 1 :=
  ⟨(at_most_one_per_key cfg0 0 [(listing0, [price0]), (listing0, [price0])] []
      (by simp)).1,
    (at_most_one_per_key cfg0 0 [(listing0, [price0]), (listing0, [price0])] []
      (by simp)).2 ("lot-1001", "ebay")⟩

/-- C6: evaluating the same listing with unchanged prices twice in
succession is idempotent — the second evaluation emits no
`OpportunityChanged` event and returns the persisted store unchanged,
every field bit-identical. -/
theorem evaluate_idempotent (cfg : EngineConfig) (now : ℚ) (l : Listing)
    (prices : List PlatformPrice) (store : List Opportunity) :
    evaluate cfg now l prices (evaluate cfg now l prices store).1 =
      ((evaluate cfg now l prices store).1, []) := by
  by_cases hr : listingRejected now l = true
  · rw [evaluate_fst_rejected hr, evaluate_fst_rejected hr]
  · have hb : listingRejected now l = false := by
      revert hr
      cases listingRejected now l <;> simp
    rw [evaluate_fst cfg now l prices store hb]
    unfold evaluate
    rw [if_neg (by simp [hb])]
    exact foldl_upsertStep_fixed
      (lookupKey_upsertStoreAll_mem (newOpportunities_keys_nodup cfg now l prices) store)

set_option maxRecDepth 16000 in

/-- C2: the spec's example scenario — bid $100.00 with 15% premium, $3.00
lot fee and no tax costs $118.00; on eBay (13.6% + $0.40) a $180.00
comparable with $10.00 shipping nets $145.12, for profit $27.12 and
ROI 2712/118 % (which rounds to 22.98%); evaluation persists exactly this
profitable Opportunity and announces it as created. -/
theorem example_scenario :
    total_cost cfg0 listing0 = Except.ok 118 ∧
    net_revenue cfg0 "ebay" 180 10 = Except.ok (mkRat 14512 100) ∧
    evaluate cfg0 0 listing0 [price0] [] = ([opp0], [⟨opp0, ChangeKind.created⟩]) ∧
    opp0.profit = mkRat 2712 100 ∧ 0 < opp0.profit ∧
    opp0.buy_cost = 118 ∧ opp0.estimated_sell_price = 180 ∧
    roundCent opp0.roi_pct = mkRat 2298 100 := by
  refine ⟨by decide, by decide, ?_, by decide, by decide, by decide, by decide, by decide⟩
  decide

set_option maxRecDepth 16000 in

/-- C3 counterexample: the frontend computes the buyer premium
`current_bid * 0.15` in IEEE-754 binary64, and at `current_bid = 8.2` the
computed value differs from the fixed-point decimal product 1.23 — so not
every money computation in the program is fixed-point decimal. -/
theorem frontend_float_counterexample :
    jsBuyerPremium (mkRat 82 10) ≠ decimalBuyerPremium (mkRat 82 10) := by
  decide

set_option maxRecDepth 16000 in

/-- C3 amended: money computations in the frontend display code are
performed in binary floating point, not fixed-point decimal — at
`current_bid = 8.2` the displayed buyer premium is the binary64 value
5539427541665709 / 2^52 ≈ 1.2299999999999998, not the decimal 1.23 — and
rounding to the cent happens only at display formatting, which shows
$1.23. -/
theorem frontend_float_amended :
    jsBuyerPremium (mkRat 82 10) = mkRat 5539427541665709 4503599627370496 ∧
    jsBuyerPremium (mkRat 82 10) ≠ mkRat 123 100 ∧
    decimalBuyerPremium (mkRat 82 10) = mkRat 123 100 ∧
    formatCurrencyCents (jsBuyerPremium (mkRat 82 10)) = 123 := by
  refine ⟨by decide, by decide, by decide, by decide⟩

/-- C4: for every configuration and listing, a positive bid makes
`total_cost` succeed with
`current_bid + current_bid × buyer_premium_rate + flat_lot_fee +
subtotal × tax_rate` (rates read from the configuration), and a
non-positive bid fails with `InvalidListingStateError`. -/
theorem total_cost_spec (cfg : EngineConfig) (l : Listing) :
    (0 < l.current_bid →
      total_cost cfg l = Except.ok
        (l.current_bid + l.current_bid * cfg.buyerPremiumRate + cfg.flatLotFee +
          (l.current_bid + l.current_bid * cfg.buyerPremiumRate + cfg.flatLotFee) *
            cfg.taxRate)) ∧
    (l.current_bid ≤ 0 →
      total_cost cfg l = Except.error EngineError.invalidListingState) := by
  constructor
  · intro h
    rw [total_cost, if_neg (not_le.mpr h)]
    simp only [total_cost_raw, qadd_eq, qmul_eq]
  · intro h
    rw [total_cost, if_pos h]

/-- Witness for C4: the example listing at bid $100.00 costs $118.00, and
the same listing with the bid zeroed out is rejected. -/
theorem total_cost_spec_witness :
    total_cost cfg0 listing0 = Except.ok 118 ∧
    total_cost cfg0 { listing0 with current_bid := 0 } =
      Except.error EngineError.invalidListingState := by
  constructor
  · have h := (total_cost_spec cfg0 listing0).1 (by norm_num [listing0])
    rw [h]
    norm_num [listing0, cfg0, Rat.mkRat_eq_div]
  · exact (total_cost_spec cfg0 { listing0 with current_bid := 0 }).2 (by norm_num)

theorem net_revenue_val_eq (sched : FeeSchedule) (p sh : ℚ) :
    net_revenue_val sched p sh = roundCent (p - (p * sched.pct + sched.flat) - sh) := by
  simp only [net_revenue_val, qsub_eq, qadd_eq, qmul_eq]

/-- C9: for every supported platform (one with a schedule in a well-formed
configuration) and non-negative sell prices, `net_revenue` succeeds and its
value is monotonically non-decreasing in the sell price and non-increasing
in the shipping cost. -/
theorem net_revenue_monotone (cfg : EngineConfig) (platform : String)
    (sched : FeeSchedule) (hcfg : ValidConfig cfg)
    (hs : lookupSchedule cfg platform = some sched)
    (p p' sh sh' : ℚ) (hp : 0 ≤ p) (hpp : p ≤ p') (hsh : sh ≤ sh') :
    net_revenue cfg platform p sh = Except.ok (net_revenue_val sched p sh) ∧
    net_revenue_val sched p sh ≤ net_revenue_val sched p' sh ∧
    net_revenue_val sched p sh' ≤ net_revenue_val sched p sh := by
  obtain ⟨-, -, -, hall⟩ := hcfg
  have hx : ∃ e ∈ cfg.feeSchedules, e.2 = sched := by
    unfold lookupSchedule at hs
    cases hfind : cfg.feeSchedules.find? (fun e => e.1 == platform) with
    | none =>
      rw [hfind] at hs
      exact absurd hs (by simp)
    | some e =>
      rw [hfind] at hs
      exact ⟨e, List.mem_of_find?_eq_some hfind, by simpa using hs⟩
  obtain ⟨e, hmem, he⟩ := hx
  obtain ⟨hp0, hp1, -⟩ := hall e hmem
  rw [he] at hp0 hp1
  refine ⟨?_, ?_, ?_⟩
  · unfold net_revenue
    rw [hs]
  · rw [net_revenue_val_eq, net_revenue_val_eq]
    apply roundCent_mono
    have hd : 0 ≤ (p' - p) * (1 - sched.pct) :=
      mul_nonneg (by linarith) (by linarith)
    nlinarith
  · rw [net_revenue_val_eq, net_revenue_val_eq]
    apply roundCent_mono
    linarith

/-- Witness for C9: on the example eBay schedule, raising the sell price
from $100 to $200 does not lower the net revenue, and raising the shipping
cost from $10 to $20 does not raise it. -/
theorem net_revenue_monotone_witness :
    net_revenue cfg0 "ebay" 100 10 = Except.ok (net_revenue_val sched0 100 10) ∧
    net_revenue_val sched0 100 10 ≤ net_revenue_val sched0 200 10 ∧
    net_revenue_val sched0 100 20 ≤ net_revenue_val sched0 100 10 :=
  net_revenue_monotone cfg0 "ebay" sched0 (by decide) (by decide) 100 200 10 20
    (by norm_num) (by norm_num) (by norm_num)

/-- C8: the confidence score of zero comparables is 0 (computed totally, no
exception), and for every sequence of comparables the score is a natural
number at most 100 — an integer in [0, 100]. -/
theorem confidence_score_range (cfg : EngineConfig) (now : ℚ) :
    score cfg now [] = 0 ∧ ∀ comps, score cfg now comps ≤ 100 := by
  refine ⟨rfl, ?_⟩
  intro comps
  unfold score
  split
  · exact Nat.zero_le _
  · unfold scoreClamp
    split
    · exact Nat.zero_le _
    · split
      · exact le_refl 100
      · rename_i h2
        omega

/-- C7: the Alert Matcher includes the pair `(setting, opportunity)` in its
output exactly when the setting is active, the opportunity's profit and ROI
meet the setting's minimums, and the watched-category set is null or
contains the opportunity's product category. -/
theorem alert_match_spec (o : Opportunity) (category : Option String)
    (settings : List AlertSetting) (s : AlertSetting) :
    (s, o) ∈ matchSettings o category settings ↔
      s ∈ settings ∧ s.is_active = true ∧ s.min_profit ≤ o.profit ∧
        s.min_roi ≤ o.roi_pct ∧
        (s.watched_categories = none ∨
          ∃ cats c, s.watched_categories = some cats ∧ category = some c ∧
            c ∈ cats) := by
  unfold matchSettings
  rw [List.mem_map]
  constructor
  · rintro ⟨a, ha, hao⟩
    rw [Prod.mk.injEq] at hao
    obtain ⟨rfl, -⟩ := hao
    rw [List.mem_filter] at ha
    obtain ⟨hmem, hcond⟩ := ha
    unfold settingMatches at hcond
    simp only [Bool.and_eq_true, decide_eq_true_eq] at hcond
    obtain ⟨⟨⟨hact, hprof⟩, hroi⟩, hcat⟩ := hcond
    refine ⟨hmem, hact, hprof, hroi, ?_⟩
    cases hw : a.watched_categories with
    | none => exact Or.inl rfl
    | some cats =>
      rw [hw] at hcat
      cases hc : category with
      | none =>
        rw [hc] at hcat
        exact absurd hcat (by simp)
      | some c =>
        rw [hc] at hcat
        simp only [decide_eq_true_eq] at hcat
        exact Or.inr ⟨cats, c, rfl, rfl, hcat⟩
  · rintro ⟨hmem, hact, hprof, hroi, hcat⟩
    refine ⟨s, ?_, rfl⟩
    rw [List.mem_filter]
    refine ⟨hmem, ?_⟩
    unfold settingMatches
    simp only [Bool.and_eq_true, decide_eq_true_eq]
    refine ⟨⟨⟨hact, hprof⟩, hroi⟩, ?_⟩
    rcases hcat with hw | ⟨cats, c, hw, hc, hmemc⟩
    · rw [hw]
    · rw [hw, hc]
      simp [hmemc]

/-- C10: `fetchJson` throws the `API error: <status>` error exactly when
the response's ok flag is false; whenever it returns a value, the response
was ok and the value is the parsed JSON body — no helper yields a value
from a non-2xx response. -/
theorem fetchJson_spec (α : Type) (r : JsResponse α) :
    ((∃ s, fetchJson r = Except.error (FetchError.apiError s)) ↔
      respOk r = false) ∧
    (∀ s, fetchJson r = Except.error (FetchError.apiError s) →
      s = r.status ∧
        (FetchError.apiError s).message = "API error: " ++ toString r.status) ∧
    (∀ v, fetchJson r = Except.ok v →
      respOk r = true ∧ r.jsonResult = Except.ok v) := by
  unfold fetchJson
  by_cases h : respOk r = true
  · rw [if_pos h]
    cases hj : r.jsonResult with
    | ok v =>
      refine ⟨?_, ?_, ?_⟩
      · constructor
        · rintro ⟨s, hs⟩
          exact absurd hs (by simp)
        · intro hfalse
          rw [h] at hfalse
          exact absurd hfalse (by simp)
      · intro s hs
        exact absurd hs (by simp)
      · intro v' hv
        simp only [Except.ok.injEq] at hv
        exact ⟨h, by rw [hv]⟩
    | error m =>
      refine ⟨?_, ?_, ?_⟩
      · constructor
        · rintro ⟨s, hs⟩
          simp at hs
        · intro hfalse
          rw [h] at hfalse
          exact absurd hfalse (by simp)
      · intro s hs
        simp at hs
      · intro v hv
        simp at hv
  · have hf : respOk r = false := by
      revert h
      cases respOk r <;> simp
    rw [if_neg h]
    refine ⟨?_, ?_, ?_⟩
    · exact ⟨fun _ => hf, fun _ => ⟨r.status, rfl⟩⟩
    · intro s hs
      simp only [Except.error.injEq, FetchError.apiError.injEq] at hs
      subst hs
      exact ⟨rfl, rfl⟩
    · intro v hv
      exact absurd hv (by simp)

/-- Witness for C10: a 404 response is not ok, and `fetchJson` throws the
`API error: 404` error for it. -/
theorem fetchJson_spec_witness :
    respOk (⟨404, Except.error "bad json"⟩ : JsResponse Nat) = false ∧
    fetchJson (⟨404, Except.error "bad json"⟩ : JsResponse Nat) =
      Except.error (FetchError.apiError 404) ∧
    (FetchError.apiError 404).message = "API error: " ++ toString (404 : Nat) := by
  refine ⟨by decide, ?_, ?_⟩
  · obtain ⟨s, hs⟩ :=
      (fetchJson_spec Nat ⟨404, Except.error "bad json"⟩).1.mpr (by decide)
    have h2 :=
      ((fetchJson_spec Nat ⟨404, Except.error "bad json"⟩).2.1 s hs).1
    rw [h2] at hs
    exact hs
  · exact ((fetchJson_spec Nat ⟨404, Except.error "bad json"⟩).2.1 404 (by decide)).2

end MacBid
